import Mathlib

/-!
Verification of the parallel file encrypter/decrypter with CPU scheduling.

Shallow embedding of `src/encryption.py` (class `FileEncryption`) and
`src/scheduler.py` (classes `Task`, `TaskScheduler`).  Byte strings are
`List Nat` (each entry one byte).  The AES-CBC cipher provided by the
external `cryptography` library is abstracted as a `BlockCipher`
structure: an encryption/decryption pair, inverse on every input and
length preserving (as AES-CBC is on block-aligned data); everything the
repository itself computes (padding, framing, header layout, chunk
splitting, scheduling, the orchestration of dispatch/collect/reassemble)
is embedded concretely from the source.

Worker concurrency is modelled by a `completion` parameter: the list of
chunk ids in the order their results reach the result queue.  The source
enqueues one task per schedule entry and the orchestrator pops exactly
`len(chunks)` results, so a run's observable output is a function of the
schedule and the completion order; with one worker the completion order
equals the dispatch order.
-/

namespace FileEnc

abbrev Bytes := List Nat

/-- `int.from_bytes(l, byteorder='big')`: big-endian value of a byte string
(0 for the empty string, as in Python). -/
def beNat (l : Bytes) : Nat := l.foldl (fun a b => a * 256 + b) 0

/-- `n.to_bytes(4, byteorder='big')`: the four big-endian bytes of `n`
(the source never calls it on values ≥ 2^32 in the runs we verify). -/
def be32 (n : Nat) : Bytes :=
  [n / 2 ^ 24 % 256, n / 2 ^ 16 % 256, n / 2 ^ 8 % 256, n % 256]

/-- Pairs each list element with its position, starting at `i`
(models `enumerate` / the positions at which results are produced). -/
def enumFrom (i : Nat) : List α → List (Nat × α)
  | [] => []
  | x :: xs => (i, x) :: enumFrom (i + 1) xs

/-- First-match association lookup (propositional test, over `Nat` keys). -/
def assocLookup (i : Nat) : List (Nat × Bytes) → Option Bytes
  | [] => none
  | (k, v) :: rest => if k = i then some v else assocLookup i rest

/-! ### Chunk splitting (`encrypt_file_parallel`, the `f.read(chunk_size)` loop) -/

/-- Fuel-driven worker for `splitChunks`; the fuel is the input length,
which suffices because every loop round either breaks or consumes at least
one byte.  The loop body reads `chunk_data = f.read(chunk_size)` (modelled
by `d.take cs`) and breaks as soon as the read comes back empty
(`if not chunk_data: break`) — in particular immediately when
`chunk_size = 0`, since `f.read(0)` returns the empty string. -/
def splitAux (cs : Nat) : Nat → Bytes → List Bytes
  | 0, _ => []
  | fuel + 1, d =>
      if d.take cs = [] then []
      else d.take cs :: splitAux cs fuel (d.drop cs)

/-- The read loop of `encrypt_file_parallel`: successive `chunk_size`-byte
slices of the input, the last one possibly shorter, none empty; empty when
the chunk size is 0 (the first read already returns the empty string). -/
def splitChunks (cs : Nat) (d : Bytes) : List Bytes := splitAux cs d.length d

/-! ### PKCS#7-style padding (`_encrypt_chunk` / `_decrypt_chunk`) -/

/-- `_encrypt_chunk` padding: `p = 16 - len % 16` bytes, each of value `p`. -/
def padBlock (d : Bytes) : Bytes :=
  d ++ List.replicate (16 - d.length % 16) (16 - d.length % 16)

/-- `_decrypt_chunk` padding removal, exactly as the source computes it:
`padding_length = decrypted_data[-1]; return decrypted_data[:-padding_length]`.
`none` models the `IndexError` raised by `[-1]` on an empty buffer; for a
trailing byte `p = 0` the slice `[:-0]` is `[:0]`, i.e. the empty string.
No validation of any kind is performed by the source. -/
def pythonUnpad (d : Bytes) : Option Bytes :=
  match d.getLast? with
  | none => none
  | some p => some (if p = 0 then [] else d.take (d.length - p))

/-! ### Abstract block cipher (external `cryptography` AES-CBC) -/

/-- The AES-256-CBC cipher used by `_encrypt_chunk`/`_decrypt_chunk` lives in
the external `cryptography` library; it is abstracted as any key/IV-indexed
length-preserving bijection pair. -/
structure BlockCipher where
  enc : Bytes → Bytes → Bytes → Bytes
  dec : Bytes → Bytes → Bytes → Bytes
  dec_enc : ∀ k iv d, dec k iv (enc k iv d) = d
  enc_length : ∀ k iv d, (enc k iv d).length = d.length
  dec_length : ∀ k iv d, (dec k iv d).length = d.length

/-- The identity instance, used to evaluate the model on concrete inputs. -/
def idCipher : BlockCipher where
  enc := fun _ _ d => d
  dec := fun _ _ d => d
  dec_enc := fun _ _ _ => rfl
  enc_length := fun _ _ _ => rfl
  dec_length := fun _ _ _ => rfl

/-- `_encrypt_chunk`: pad, encrypt, and prepend the IV. -/
def encryptChunk (C : BlockCipher) (key iv d : Bytes) : Bytes :=
  iv ++ C.enc key iv (padBlock d)

/-- `_decrypt_chunk`: split off the 16-byte IV, decrypt, strip padding.
The two guards model the exceptions of the external library (CBC requires a
16-byte IV; `finalize` requires block-aligned ciphertext); `pythonUnpad`
models the source's own unpadding.  `none` is the worker-caught exception. -/
def decryptChunk (C : BlockCipher) (key chunk : Bytes) : Option Bytes :=
  if chunk.length < 16 then none
  else if (chunk.length - 16) % 16 ≠ 0 then none
  else pythonUnpad (C.dec key (chunk.take 16) (chunk.drop 16))

/-! ### Frame encoding (`encrypt_file_parallel` writer / `decrypt_file_parallel` reader) -/

/-- A written frame: 4-byte big-endian length prefix, then the chunk bytes. -/
def encodeFrame (d : Bytes) : Bytes := be32 d.length ++ d

/-- The frame-reading loop of `decrypt_file_parallel`: `chunk_count` rounds of
`chunk_length = int.from_bytes(f.read(4)); chunk_data = f.read(chunk_length)`.
`take`/`drop` model `f.read`, which returns fewer bytes at end of file. -/
def readFrames : Nat → Bytes → List Bytes
  | 0, _ => []
  | k + 1, rest =>
      (rest.drop 4).take (beNat (rest.take 4)) ::
        readFrames k ((rest.drop 4).drop (beNat (rest.take 4)))

/-! ### Scheduler (`src/scheduler.py`)

`Task.arrival_time` is `time.time()` taken at registration, so successive
registrations carry nondecreasing arrival times and Python's stable `sorted`
leaves registration order unchanged among equal stamps; we model the arrival
stamp by the registration index, which induces exactly the same stable order. -/

structure SchedTask where
  task_id : Nat
  size : Nat
  arrival : Nat
  remaining : Nat
deriving DecidableEq, Repr

/-- `Task.__init__`: `remaining_time` starts at `size`. -/
def mkTask (id size arrival : Nat) : SchedTask :=
  { task_id := id, size := size, arrival := arrival, remaining := size }

/-- The `scheduler.add_task(chunk_id, task_size)` loop of both pipelines:
task ids are the chunk ids `0, 1, ...` in registration order. -/
def registerTasks (sizes : List Nat) : List SchedTask :=
  (enumFrom 0 sizes).map (fun p => mkTask p.1 p.2 p.1)

/-- Stable insertion: place `t` before the first element whose key is not
smaller.  Together with `stableSortBy` this is extensionally Python's stable
`sorted(..., key=...)` (proved below: permutation, sortedness, stability). -/
def insertBy (key : SchedTask → Nat) (t : SchedTask) : List SchedTask → List SchedTask
  | [] => [t]
  | u :: us => if key t ≤ key u then t :: u :: us else u :: insertBy key t us

/-- Model of Python's stable `sorted(tasks, key=...)`. -/
def stableSortBy (key : SchedTask → Nat) : List SchedTask → List SchedTask
  | [] => []
  | t :: ts => insertBy key t (stableSortBy key ts)

/-- `_schedule_fcfs`: stable sort by arrival stamp; each entry carries
`(task_id, size)` (the dispatch loop only reads `task_id`). -/
def scheduleFCFS (tasks : List SchedTask) : List (Nat × Nat) :=
  (stableSortBy (fun t => t.arrival) tasks).map (fun t => (t.task_id, t.size))

/-- `_schedule_sjf`: stable sort by task size. -/
def scheduleSJF (tasks : List SchedTask) : List (Nat × Nat) :=
  (stableSortBy (fun t => t.size) tasks).map (fun t => (t.task_id, t.size))

/-- `_schedule_round_robin` loop body, fuel-driven.  The queue holds
`(task_id, remaining_time)`; each round pops the head, emits one schedule
entry `(task_id, min quantum remaining)`, subtracts the slice from
`remaining`, and re-enqueues the task at the tail iff `remaining > 0`.
The second component collects the final `remaining` of the task objects
(which the source mutates in place through its shallow `copy()`), together
with the still-queued tasks if the fuel runs out.
The source does `min(q/1000, r/1000)` and `r -= execution_time*1000` on
floats; for the integral sizes and quanta involved this is exact
subtraction, modelled here over `Nat`. -/
def rrAux (q : Nat) : Nat → List (Nat × Nat) → List (Nat × Nat) × List (Nat × Nat)
  | 0, queue => ([], queue)
  | _ + 1, [] => ([], [])
  | fuel + 1, (id, r) :: rest =>
      if 0 < r - min q r then
        let out := rrAux q fuel (rest ++ [(id, r - min q r)])
        ((id, min q r) :: out.1, out.2)
      else
        let out := rrAux q fuel rest
        ((id, min q r) :: out.1, (id, r - min q r) :: out.2)

/-- Fuel that always suffices for `rrAux` when `1 ≤ q`: every round either
consumes at least one unit of total remaining work or retires a task. -/
def rrFuel (queue : List (Nat × Nat)) : Nat :=
  (queue.map (fun p => p.2)).sum + queue.length

/-- `_schedule_round_robin` on a scheduler's task list: returns the emitted
schedule entries and the final `remaining` values of the shared task objects. -/
def scheduleRR (q : Nat) (tasks : List SchedTask) : List (Nat × Nat) × List (Nat × Nat) :=
  rrAux q (rrFuel (tasks.map (fun t => (t.task_id, t.remaining))))
    (tasks.map (fun t => (t.task_id, t.remaining)))

inductive SchedError where
  | unknownAlgorithm
  | missingQuantum
deriving DecidableEq, Repr

structure Scheduler where
  algorithm : String
  time_quantum : Option Nat
  tasks : List SchedTask
deriving DecidableEq, Repr

/-- `TaskScheduler.schedule_tasks`.  The quantum guard models Python's
falsiness test `if not self.time_quantum` (both `None` and `0` raise); the
Round-Robin branch also applies the in-place mutation of the shared task
objects' `remaining_time` performed through the shallow `copy()`. -/
def scheduleTasks (s : Scheduler) : Except SchedError (List (Nat × Nat) × Scheduler) :=
  if s.algorithm = "FCFS" then .ok (scheduleFCFS s.tasks, s)
  else if s.algorithm = "SJF" then .ok (scheduleSJF s.tasks, s)
  else if s.algorithm = "Round Robin" then
    match s.time_quantum with
    | none => .error .missingQuantum
    | some 0 => .error .missingQuantum
    | some (q + 1) =>
        let out := scheduleRR (q + 1) s.tasks
        .ok (out.1,
          { s with tasks := s.tasks.map (fun t =>
              { t with remaining := ((out.2).lookup t.task_id).getD t.remaining }) })
  else .error .unknownAlgorithm

/-! ### Orchestration (`encrypt_file_parallel` / `decrypt_file_parallel`)

Both pipelines: read/split, register tasks, start `max_workers` worker
threads, call `schedule_tasks` (so scheduling errors are raised *after* the
workers have been started), enqueue one task per schedule entry, pop exactly
`len(chunks)` results from the result queue keeping only successes (failed
results are discarded), and write the output keyed by ascending chunk id,
skipping ids absent from the results dict. -/

deriving instance DecidableEq for Except

inductive PipelineError where
  | emptyInput
  | sched (e : SchedError)
deriving DecidableEq, Repr

/-- The result-collection loop: pop `n` results in completion order; only
successful results enter the `results` dict (`if result['success']`). -/
def collectResults (n : Nat) (arrivals : List (Nat × Option Bytes)) : List (Nat × Bytes) :=
  (arrivals.take n).filterMap (fun p =>
    match p.2 with
    | some d => some (p.1, d)
    | none => none)

/-- Python-dict lookup over the collected results: the latest assignment to
a chunk id wins. -/
def lookupResult (rs : List (Nat × Bytes)) (i : Nat) : Option Bytes :=
  assocLookup i rs.reverse

/-- The encrypted-file writer: salt, 4-byte big-endian chunk count, then for
each chunk id in ascending order its length-prefixed frame — skipped
entirely when the id is missing from the results dict. -/
def writeEncFile (salt : Bytes) (n : Nat) (rs : List (Nat × Bytes)) : Bytes :=
  salt ++ be32 n ++
    ((List.range n).map (fun i =>
      match lookupResult rs i with
      | some d => encodeFrame d
      | none => [])).flatten

/-- The decrypted-file writer: plain concatenation of present results in
ascending chunk-id order, absent ids skipped. -/
def writeDecFile (n : Nat) (rs : List (Nat × Bytes)) : Bytes :=
  ((List.range n).map (fun i => (lookupResult rs i).getD [])).flatten

/-- Worker outputs of an encryption run, listed in completion order: the
`j`-th completed result encrypts its chunk with the `j`-th fresh random IV
(the source draws one per `_encrypt_chunk` call); encryption never fails. -/
def encArrivals (C : BlockCipher) (key : Bytes) (ivs : Nat → Bytes)
    (chunks : List Bytes) (completion : List Nat) : List (Nat × Option Bytes) :=
  (enumFrom 0 completion).map (fun p =>
    (p.2, some (encryptChunk C key (ivs p.1) (chunks.getD p.2 []))))

/-- Worker outputs of a decryption run, listed in completion order; a
`none` payload is a worker-caught cipher/padding exception. -/
def decArrivals (C : BlockCipher) (key : Bytes) (chunks : List Bytes)
    (completion : List Nat) : List (Nat × Option Bytes) :=
  completion.map (fun c => (c, decryptChunk C key (chunks.getD c [])))

structure EncOutcome where
  result : Except PipelineError Bytes
  workersStarted : Nat
  dispatched : List Nat
deriving DecidableEq, Repr

structure DecOutcome where
  result : Except PipelineError Bytes
  workersStarted : Nat
  dispatched : List Nat
  chunkCount : Nat
deriving DecidableEq, Repr

/-- `FileEncryption.encrypt_file_parallel`.  `kdf` abstracts the external
PBKDF2 derivation, `salt` the 16 random bytes of `secrets.token_bytes(16)`,
`ivs` the per-call random IVs, and `completion` the order in which worker
results reach the result queue.  The `workersStarted` field records how many
worker threads had been started when the run returned or raised. -/
def runEncrypt (C : BlockCipher) (kdf : Bytes → Bytes → Bytes) (ivs : Nat → Bytes)
    (salt password data : Bytes) (chunkSize maxWorkers : Nat)
    (algorithm : String) (quantum : Option Nat) (completion : List Nat) : EncOutcome :=
  let key := kdf password salt
  let chunks := splitChunks chunkSize data
  if chunks.isEmpty then
    { result := .error .emptyInput, workersStarted := 0, dispatched := [] }
  else
    match scheduleTasks
        { algorithm := algorithm, time_quantum := quantum,
          tasks := registerTasks (chunks.map (fun c => c.length)) } with
    | .error e =>
        { result := .error (.sched e), workersStarted := maxWorkers, dispatched := [] }
    | .ok (entries, _) =>
        { result := .ok (writeEncFile salt chunks.length
            (collectResults chunks.length (encArrivals C key ivs chunks completion))),
          workersStarted := maxWorkers,
          dispatched := entries.map (fun e => e.1) }

/-- `FileEncryption.decrypt_file_parallel`.  Header parsing mirrors the
source's `f.read` calls, which return fewer bytes at end of file; there is
no emptiness or well-formedness check of any kind before scheduling. -/
def runDecrypt (C : BlockCipher) (kdf : Bytes → Bytes → Bytes)
    (password fileData : Bytes) (maxWorkers : Nat)
    (algorithm : String) (quantum : Option Nat) (completion : List Nat) : DecOutcome :=
  let salt := fileData.take 16
  let key := kdf password salt
  let rest := fileData.drop 16
  let cnt := beNat (rest.take 4)
  let chunks := readFrames cnt (rest.drop 4)
  match scheduleTasks
      { algorithm := algorithm, time_quantum := quantum,
        tasks := registerTasks (chunks.map (fun c => c.length)) } with
  | .error e =>
      { result := .error (.sched e), workersStarted := maxWorkers,
        dispatched := [], chunkCount := cnt }
  | .ok (entries, _) =>
      { result := .ok (writeDecFile chunks.length
          (collectResults chunks.length (decArrivals C key chunks completion))),
        workersStarted := maxWorkers,
        dispatched := entries.map (fun e => e.1),
        chunkCount := cnt }

/-- A completion order covers a run of `n` chunks when every dispatched id is
a valid chunk id and every chunk id occurs among the first `n` completions —
the condition under which the collection loop's `n` pops see every chunk.
It holds whenever the dispatch list is a permutation of `0..n-1` (FCFS, SJF)
and, for Round Robin, when results complete in dispatch order (one worker),
since the first `n` Round-Robin slices are the first round over the queue. -/
def coveredCompletion (n : Nat) (completion : List Nat) : Prop :=
  (∀ c ∈ completion, c < n) ∧ ∀ i < n, i ∈ completion.take n

/-- The scheduling configurations `schedule_tasks` accepts without raising. -/
def schedOk (algorithm : String) (quantum : Option Nat) : Prop :=
  algorithm = "FCFS" ∨ algorithm = "SJF" ∨
    (algorithm = "Round Robin" ∧ ∃ q, quantum = some (q + 1))

/-! ### Basic lemmas -/

theorem be32_length (n : Nat) : (be32 n).length = 4 := rfl

theorem beNat_be32 {n : Nat} (h : n < 2 ^ 32) : beNat (be32 n) = n := by
  simp only [beNat, be32, List.foldl]
  omega

theorem splitAux_flatten (cs : Nat) (hcs : 1 ≤ cs) :
    ∀ fuel d, d.length ≤ fuel → (splitAux cs fuel d).flatten = d := by
  intro fuel
  induction fuel with
  | zero =>
      intro d hd
      have : d = [] := List.eq_nil_of_length_eq_zero (Nat.le_zero.mp hd)
      simp [this, splitAux]
  | succ fuel ih =>
      intro d hd
      cases d with
      | nil => simp [splitAux]
      | cons x xs =>
          have hne : (x :: xs).take cs ≠ [] := by
            cases cs with
            | zero => omega
            | succ m => simp [List.take_succ_cons]
          simp only [splitAux, if_neg hne, List.flatten_cons]
          rw [ih ((x :: xs).drop cs)
            (by simp only [List.length_drop, List.length_cons] at hd ⊢; omega)]
          exact List.take_append_drop cs (x :: xs)

theorem splitChunks_flatten {cs : Nat} (hcs : 1 ≤ cs) (d : Bytes) :
    (splitChunks cs d).flatten = d :=
  splitAux_flatten cs hcs d.length d (Nat.le_refl _)

theorem splitAux_length_le (cs : Nat) :
    ∀ fuel d, (splitAux cs fuel d).length ≤ fuel := by
  intro fuel
  induction fuel with
  | zero => intro d; simp [splitAux]
  | succ fuel ih =>
      intro d
      rw [splitAux]
      by_cases h : d.take cs = []
      · rw [if_pos h]; simp
      · rw [if_neg h]
        simp only [List.length_cons]
        exact Nat.succ_le_succ (ih _)

theorem splitChunks_length_le (cs : Nat) (d : Bytes) :
    (splitChunks cs d).length ≤ d.length :=
  splitAux_length_le cs d.length d

theorem splitAux_mem_length (cs : Nat) :
    ∀ fuel d c, c ∈ splitAux cs fuel d → c.length ≤ cs := by
  intro fuel
  induction fuel with
  | zero => intro d c hc; simp [splitAux] at hc
  | succ fuel ih =>
      intro d c hc
      rw [splitAux] at hc
      by_cases h : d.take cs = []
      · rw [if_pos h] at hc; simp at hc
      · rw [if_neg h] at hc
        rcases List.mem_cons.mp hc with h2 | h2
        · subst h2; simp
        · exact ih _ _ h2

theorem splitChunks_mem_length {cs : Nat} {d c : Bytes}
    (hc : c ∈ splitChunks cs d) : c.length ≤ cs :=
  splitAux_mem_length cs d.length d c hc

theorem splitChunks_ne_nil {cs : Nat} {d : Bytes} (hcs : 1 ≤ cs) (hd : d ≠ []) :
    splitChunks cs d ≠ [] := by
  cases d with
  | nil => exact absurd rfl hd
  | cons x xs =>
      have hne : (x :: xs).take cs ≠ [] := by
        cases cs with
        | zero => omega
        | succ m => simp [List.take_succ_cons]
      rw [splitChunks]
      show splitAux cs (xs.length + 1) (x :: xs) ≠ []
      rw [splitAux, if_neg hne]
      simp

theorem splitChunks_nil (cs : Nat) : splitChunks cs [] = [] := rfl

/-- With chunk size 0 the very first `f.read(0)` returns the empty string
and the read loop breaks, so no chunk is collected at all. -/
theorem splitChunks_zero (d : Bytes) : splitChunks 0 d = [] := by
  cases d with
  | nil => rfl
  | cons x xs => simp [splitChunks, splitAux]

/-! ### Padding lemmas -/

theorem padBlock_length (d : Bytes) :
    (padBlock d).length = d.length + (16 - d.length % 16) := by
  simp [padBlock]

theorem padBlock_mod (d : Bytes) : (padBlock d).length % 16 = 0 := by
  rw [padBlock_length]
  omega

theorem replicate_getLast? {n p : Nat} (hn : 0 < n) :
    (List.replicate n p).getLast? = some p := by
  induction n with
  | zero => omega
  | succ n ih =>
      cases n with
      | zero => rfl
      | succ m =>
          rw [List.replicate_succ, List.replicate_succ, List.getLast?_cons_cons,
            ← List.replicate_succ]
          exact ih (Nat.succ_pos m)

theorem pythonUnpad_padBlock (d : Bytes) : pythonUnpad (padBlock d) = some d := by
  have hp : 0 < 16 - d.length % 16 := by omega
  have hlast : (padBlock d).getLast? = some (16 - d.length % 16) := by
    rw [padBlock, List.getLast?_append, replicate_getLast? hp]
    rfl
  rw [pythonUnpad, hlast]
  have hne : ¬(16 - d.length % 16 = 0) := by omega
  simp only [hne, if_false]
  congr 1
  rw [padBlock_length]
  have : d.length + (16 - d.length % 16) - (16 - d.length % 16) = d.length := by omega
  rw [this, padBlock, List.take_left' rfl]

/-! ### Chunk round trip -/

theorem decryptChunk_encryptChunk (C : BlockCipher) (key iv d : Bytes)
    (hiv : iv.length = 16) :
    decryptChunk C key (encryptChunk C key iv d) = some d := by
  have hlen : (encryptChunk C key iv d).length = 16 + (padBlock d).length := by
    simp [encryptChunk, hiv, C.enc_length]
  have htake : (encryptChunk C key iv d).take 16 = iv :=
    List.take_left' hiv
  have hdrop : (encryptChunk C key iv d).drop 16 = C.enc key iv (padBlock d) :=
    List.drop_left' hiv
  rw [decryptChunk, if_neg (by omega), if_neg (by push_neg; rw [hlen]; simpa using padBlock_mod d),
    htake, hdrop, C.dec_enc]
  exact pythonUnpad_padBlock d

/-! ### Frame parsing round trip -/

theorem readFrames_flatten_encode :
    ∀ es : List Bytes, (∀ e ∈ es, e.length < 2 ^ 32) →
      readFrames es.length (es.map encodeFrame).flatten = es := by
  intro es
  induction es with
  | nil => intro _; rfl
  | cons e es ih =>
      intro h
      have he : e.length < 2 ^ 32 := h e (List.mem_cons_self e es)
      simp only [List.length_cons, List.map_cons, List.flatten_cons, readFrames]
      have h4 : ((encodeFrame e ++ (es.map encodeFrame).flatten).take 4) = be32 e.length := by
        rw [encodeFrame, List.append_assoc]
        exact List.take_left' (be32_length e.length)
      have hdrop4 : ((encodeFrame e ++ (es.map encodeFrame).flatten).drop 4)
          = e ++ (es.map encodeFrame).flatten := by
        rw [encodeFrame, List.append_assoc]
        exact List.drop_left' (be32_length e.length)
      rw [h4, hdrop4, beNat_be32 he, List.take_left, List.drop_left]
      exact congrArg (e :: ·) (ih (fun x hx => h x (List.mem_cons_of_mem e hx)))

/-! ### Enumeration lemmas -/

theorem enumFrom_map_snd (i : Nat) :
    ∀ l : List α, (enumFrom i l).map (fun p => p.2) = l := by
  intro l
  induction l generalizing i with
  | nil => rfl
  | cons x xs ih => simp [enumFrom, ih]

theorem enumFrom_map_fst :
    ∀ (l : List α) (i : Nat), (enumFrom i l).map (fun p => p.1) = List.range' i l.length := by
  intro l
  induction l with
  | nil => intro i; rfl
  | cons x xs ih => intro i; simp [enumFrom, List.range'_succ, ih]

theorem enumFrom_length (i : Nat) (l : List α) : (enumFrom i l).length = l.length := by
  induction l generalizing i with
  | nil => rfl
  | cons x xs ih => simp [enumFrom, ih]

theorem enumFrom_take (n : Nat) :
    ∀ (l : List α) (i : Nat), (enumFrom i l).take n = enumFrom i (l.take n) := by
  induction n with
  | zero => intro l i; simp [enumFrom]
  | succ n ih =>
      intro l i
      cases l with
      | nil => rfl
      | cons x xs => simp [enumFrom, List.take_succ_cons, ih]

theorem mem_enumFrom {p : Nat × α} :
    ∀ {l : List α} {i : Nat}, p ∈ enumFrom i l → p.2 ∈ l := by
  intro l
  induction l with
  | nil => intro i h; simp [enumFrom] at h
  | cons x xs ih =>
      intro i h
      simp only [enumFrom, List.mem_cons] at h
      rcases h with h | h
      · subst h; exact List.mem_cons_self x xs
      · exact List.mem_cons_of_mem x (ih h)

/-! ### Result collection lemmas -/

theorem assocLookup_mem {i : Nat} {d : Bytes} :
    ∀ {rs : List (Nat × Bytes)}, assocLookup i rs = some d → (i, d) ∈ rs := by
  intro rs
  induction rs with
  | nil => intro h; simp [assocLookup] at h
  | cons p ps ih =>
      intro h
      obtain ⟨k, v⟩ := p
      rw [assocLookup] at h
      by_cases hk : k = i
      · rw [if_pos hk] at h
        cases h
        subst hk
        exact List.mem_cons_self _ _
      · rw [if_neg hk] at h
        exact List.mem_cons_of_mem _ (ih h)

theorem assocLookup_isSome {i : Nat} {d : Bytes} :
    ∀ {rs : List (Nat × Bytes)}, (i, d) ∈ rs → ∃ v, assocLookup i rs = some v := by
  intro rs
  induction rs with
  | nil => intro h; simp at h
  | cons p ps ih =>
      intro h
      obtain ⟨k, v⟩ := p
      by_cases hk : k = i
      · exact ⟨v, by rw [assocLookup, if_pos hk]⟩
      · rw [List.mem_cons] at h
        rcases h with h | h
        · cases h; exact absurd rfl hk
        · obtain ⟨w, hw⟩ := ih h
          exact ⟨w, by rw [assocLookup, if_neg hk]; exact hw⟩

theorem lookupResult_mem {rs : List (Nat × Bytes)} {i : Nat} {d : Bytes}
    (h : lookupResult rs i = some d) : (i, d) ∈ rs := by
  have := assocLookup_mem h
  exact (List.mem_reverse).mp this

theorem lookupResult_isSome {rs : List (Nat × Bytes)} {i : Nat} {d : Bytes}
    (h : (i, d) ∈ rs) : ∃ v, lookupResult rs i = some v :=
  assocLookup_isSome ((List.mem_reverse).mpr h)

theorem collectResults_mem {n : Nat} {arr : List (Nat × Option Bytes)}
    {i : Nat} {d : Bytes} (h : (i, d) ∈ collectResults n arr) :
    (i, some d) ∈ arr.take n := by
  rw [collectResults] at h
  obtain ⟨p, hp, he⟩ := List.mem_filterMap.mp h
  obtain ⟨k, v⟩ := p
  cases v with
  | none => simp at he
  | some w =>
      simp only [Option.some.injEq, Prod.mk.injEq] at he
      obtain ⟨h1, h2⟩ := he
      subst h1
      subst h2
      exact hp

theorem mem_collectResults {n : Nat} {arr : List (Nat × Option Bytes)}
    {i : Nat} {d : Bytes} (h : (i, some d) ∈ arr.take n) :
    (i, d) ∈ collectResults n arr := by
  rw [collectResults]
  exact List.mem_filterMap.mpr ⟨(i, some d), h, rfl⟩

/-- Main collection lemma: if every result in the collected prefix satisfies
`P` at its chunk id, and id `i` has a successful result in that prefix, then
the dict lookup for `i` yields some value satisfying `P i`. -/
theorem lookupResult_collect {n : Nat} {arr : List (Nat × Option Bytes)}
    {P : Nat → Bytes → Prop} {i : Nat} {d0 : Bytes}
    (hh : (i, some d0) ∈ arr.take n)
    (hP : ∀ p ∈ arr.take n, ∀ d, p.2 = some d → P p.1 d) :
    ∃ d, lookupResult (collectResults n arr) i = some d ∧ P i d := by
  obtain ⟨v, hv⟩ := lookupResult_isSome (mem_collectResults hh)
  refine ⟨v, hv, ?_⟩
  have hmem := collectResults_mem (lookupResult_mem hv)
  exact hP _ hmem _ rfl

/-! ### Stable-sort lemmas -/

theorem insertBy_perm (key : SchedTask → Nat) (t : SchedTask) :
    ∀ l : List SchedTask, List.Perm (insertBy key t l) (t :: l) := by
  intro l
  induction l with
  | nil => exact List.Perm.refl _
  | cons u us ih =>
      rw [insertBy]
      by_cases h : key t ≤ key u
      · rw [if_pos h]
      · rw [if_neg h]
        exact (ih.cons u).trans (List.Perm.swap t u us)

theorem stableSortBy_perm (key : SchedTask → Nat) :
    ∀ l : List SchedTask, List.Perm (stableSortBy key l) l := by
  intro l
  induction l with
  | nil => exact List.Perm.refl _
  | cons t ts ih =>
      exact (insertBy_perm key t (stableSortBy key ts)).trans (ih.cons t)

theorem mem_insertBy {key : SchedTask → Nat} {t x : SchedTask} {l : List SchedTask}
    (h : x ∈ insertBy key t l) : x = t ∨ x ∈ l :=
  List.mem_cons.mp ((insertBy_perm key t l).mem_iff.mp h)

theorem insertBy_sorted {key : SchedTask → Nat} {t : SchedTask} :
    ∀ {l : List SchedTask}, List.Pairwise (fun a b => key a ≤ key b) l →
      List.Pairwise (fun a b => key a ≤ key b) (insertBy key t l) := by
  intro l
  induction l with
  | nil => intro _; simp [insertBy]
  | cons u us ih =>
      intro hl
      rw [List.pairwise_cons] at hl
      obtain ⟨hu, hus⟩ := hl
      rw [insertBy]
      by_cases h : key t ≤ key u
      · rw [if_pos h]
        refine List.pairwise_cons.mpr ⟨?_, List.pairwise_cons.mpr ⟨hu, hus⟩⟩
        intro b hb
        rcases List.mem_cons.mp hb with hb | hb
        · subst hb; exact h
        · exact Nat.le_trans h (hu b hb)
      · rw [if_neg h]
        refine List.pairwise_cons.mpr ⟨?_, ih hus⟩
        intro b hb
        rcases mem_insertBy hb with hb | hb
        · subst hb; omega
        · exact hu b hb

theorem stableSortBy_sorted (key : SchedTask → Nat) :
    ∀ l : List SchedTask,
      List.Pairwise (fun a b => key a ≤ key b) (stableSortBy key l) := by
  intro l
  induction l with
  | nil => simp [stableSortBy]
  | cons t ts ih => exact insertBy_sorted ih

theorem filter_insertBy_eq (key : SchedTask → Nat) (t : SchedTask) (k : Nat)
    (ht : key t = k) :
    ∀ l : List SchedTask,
      (insertBy key t l).filter (fun x => key x == k)
        = t :: l.filter (fun x => key x == k) := by
  intro l
  induction l with
  | nil => simp [insertBy, List.filter, ht]
  | cons u us ih =>
      rw [insertBy]
      by_cases h : key t ≤ key u
      · rw [if_pos h, List.filter_cons, if_pos (by simp [ht])]
      · rw [if_neg h]
        have hu : ¬(key u == k) = true := by
          simp only [beq_iff_eq]
          omega
        rw [List.filter_cons, if_neg hu, ih, List.filter_cons, if_neg hu]

theorem filter_insertBy_ne (key : SchedTask → Nat) (t : SchedTask) (k : Nat)
    (ht : key t ≠ k) :
    ∀ l : List SchedTask,
      (insertBy key t l).filter (fun x => key x == k)
        = l.filter (fun x => key x == k) := by
  intro l
  induction l with
  | nil => simp [insertBy, ht]
  | cons u us ih =>
      rw [insertBy]
      by_cases h : key t ≤ key u
      · rw [if_pos h, List.filter_cons, if_neg (by simp [ht])]
      · rw [if_neg h, List.filter_cons, List.filter_cons]
        by_cases hu : (key u == k) = true
        · rw [if_pos hu, if_pos hu, ih]
        · rw [if_neg hu, if_neg hu, ih]

/-- Stability of the sort: the subsequence of elements with any fixed key
value is exactly the input's subsequence, in the input's order. -/
theorem stableSortBy_stable (key : SchedTask → Nat) (k : Nat) :
    ∀ l : List SchedTask,
      (stableSortBy key l).filter (fun x => key x == k)
        = l.filter (fun x => key x == k) := by
  intro l
  induction l with
  | nil => rfl
  | cons t ts ih =>
      rw [stableSortBy]
      by_cases ht : key t = k
      · rw [filter_insertBy_eq key t k ht, ih, List.filter_cons,
          if_pos (by simp [ht])]
      · rw [filter_insertBy_ne key t k ht, ih, List.filter_cons,
          if_neg (by simp [ht])]

/-- A list already sorted by the key is left unchanged (so FCFS keeps
registration order, and stable sorting keeps equal keys in place). -/
theorem stableSortBy_of_sorted {key : SchedTask → Nat} :
    ∀ {l : List SchedTask}, List.Pairwise (fun a b => key a ≤ key b) l →
      stableSortBy key l = l := by
  intro l
  induction l with
  | nil => intro _; rfl
  | cons t ts ih =>
      intro hl
      rw [List.pairwise_cons] at hl
      obtain ⟨ht, hts⟩ := hl
      rw [stableSortBy, ih hts]
      cases ts with
      | nil => rfl
      | cons u us =>
          rw [insertBy, if_pos (ht u (List.mem_cons_self u us))]

/-! ### Registered-task lemmas -/

theorem registerTasks_ids (sizes : List Nat) :
    (registerTasks sizes).map (fun t => t.task_id) = List.range sizes.length := by
  rw [registerTasks, List.map_map]
  have : ((fun t => t.task_id) ∘ fun p : Nat × Nat => mkTask p.1 p.2 p.1)
      = fun p : Nat × Nat => p.1 := rfl
  rw [this, enumFrom_map_fst, List.range_eq_range']

theorem registerTasks_length (sizes : List Nat) :
    (registerTasks sizes).length = sizes.length := by
  rw [registerTasks, List.length_map, enumFrom_length]

theorem enumFrom_fst_le {p : Nat × α} :
    ∀ {l : List α} {i : Nat}, p ∈ enumFrom i l → i ≤ p.1 := by
  intro l
  induction l with
  | nil => intro i h; simp [enumFrom] at h
  | cons x xs ih =>
      intro i h
      rw [enumFrom, List.mem_cons] at h
      rcases h with h | h
      · subst h; exact Nat.le_refl _
      · exact Nat.le_of_succ_le (ih h)

theorem enumFrom_pairwise_fst (l : List α) :
    ∀ i, List.Pairwise (fun p q : Nat × α => p.1 < q.1) (enumFrom i l) := by
  induction l with
  | nil => intro i; simp [enumFrom]
  | cons x xs ih =>
      intro i
      rw [enumFrom, List.pairwise_cons]
      refine ⟨?_, ih (i + 1)⟩
      intro p hp
      have := enumFrom_fst_le hp
      omega

theorem registerTasks_arrival_sorted (sizes : List Nat) :
    List.Pairwise (fun a b : SchedTask => a.arrival ≤ b.arrival)
      (registerTasks sizes) := by
  rw [registerTasks]
  refine List.Pairwise.map _ ?_ (enumFrom_pairwise_fst sizes 0)
  intro p q h
  simp only [mkTask]
  omega

/-! ### Schedule-level lemmas -/

theorem scheduleFCFS_registerTasks (sizes : List Nat) :
    scheduleFCFS (registerTasks sizes)
      = (registerTasks sizes).map (fun t => (t.task_id, t.size)) := by
  rw [scheduleFCFS, stableSortBy_of_sorted (registerTasks_arrival_sorted sizes)]

theorem scheduleFCFS_registerTasks_ids (sizes : List Nat) :
    (scheduleFCFS (registerTasks sizes)).map (fun e => e.1)
      = List.range sizes.length := by
  rw [scheduleFCFS_registerTasks, List.map_map]
  exact registerTasks_ids sizes

theorem scheduleSJF_ids_perm (tasks : List SchedTask) :
    List.Perm ((scheduleSJF tasks).map (fun e => e.1))
      (tasks.map (fun t => t.task_id)) := by
  rw [scheduleSJF, List.map_map]
  have h1 := (stableSortBy_perm (fun t => t.size) tasks).map
    ((fun e : Nat × Nat => e.1) ∘ fun t => (t.task_id, t.size))
  exact h1

theorem scheduleTasks_fcfs (q : Option Nat) (tasks : List SchedTask) :
    scheduleTasks { algorithm := "FCFS", time_quantum := q, tasks := tasks }
      = .ok (scheduleFCFS tasks,
          { algorithm := "FCFS", time_quantum := q, tasks := tasks }) := rfl

theorem scheduleTasks_sjf (q : Option Nat) (tasks : List SchedTask) :
    scheduleTasks { algorithm := "SJF", time_quantum := q, tasks := tasks }
      = .ok (scheduleSJF tasks,
          { algorithm := "SJF", time_quantum := q, tasks := tasks }) := rfl

theorem scheduleTasks_rr (q : Nat) (tasks : List SchedTask) :
    scheduleTasks
        { algorithm := "Round Robin", time_quantum := some (q + 1),
          tasks := tasks }
      = .ok ((scheduleRR (q + 1) tasks).1,
          { algorithm := "Round Robin",
            time_quantum := some (q + 1),
            tasks := tasks.map (fun t =>
              { t with remaining := (((scheduleRR (q + 1) tasks).2).lookup t.task_id).getD t.remaining }) }) := rfl

theorem scheduleTasks_schedOk {alg : String} {q : Option Nat}
    (h : schedOk alg q) (tasks : List SchedTask) :
    ∃ entries s2,
      scheduleTasks { algorithm := alg, time_quantum := q, tasks := tasks }
        = .ok (entries, s2) := by
  rcases h with h | h | ⟨h, q0, hq⟩
  · subst h; exact ⟨_, _, scheduleTasks_fcfs q tasks⟩
  · subst h; exact ⟨_, _, scheduleTasks_sjf q tasks⟩
  · subst h; subst hq; exact ⟨_, _, scheduleTasks_rr q0 tasks⟩

/-! ### Round-Robin lemmas -/

theorem rrFuel_cons (id r : Nat) (rest : List (Nat × Nat)) :
    rrFuel ((id, r) :: rest) = r + rrFuel rest + 1 := by
  simp [rrFuel]
  omega

theorem rrFuel_append_singleton (rest : List (Nat × Nat)) (x : Nat × Nat) :
    rrFuel (rest ++ [x]) = rrFuel rest + x.2 + 1 := by
  simp [rrFuel]
  omega

theorem rrFuel_length_le (queue : List (Nat × Nat)) : queue.length ≤ rrFuel queue := by
  simp [rrFuel]

theorem rrAux_fst_subset (q : Nat) :
    ∀ fuel queue x, x ∈ (rrAux q fuel queue).1 →
      x.1 ∈ queue.map (fun e => e.1) := by
  intro fuel
  induction fuel with
  | zero => intro queue x hx; simp [rrAux] at hx
  | succ fuel ih =>
      intro queue x hx
      cases queue with
      | nil => simp [rrAux] at hx
      | cons hd rest =>
          obtain ⟨id, r⟩ := hd
          rw [rrAux] at hx
          by_cases h : 0 < r - min q r
          · rw [if_pos h] at hx
            rcases List.mem_cons.mp hx with hx | hx
            · subst hx; simp
            · have := ih _ x hx
              simp only [List.map_append, List.map_cons, List.map_nil,
                List.mem_append, List.mem_cons] at this
              simp only [List.map_cons, List.mem_cons]
              rcases this with h1 | h1
              · exact Or.inr h1
              · rcases h1 with h1 | h1
                · exact Or.inl h1
                · simp at h1
          · rw [if_neg h] at hx
            rcases List.mem_cons.mp hx with hx | hx
            · subst hx; simp
            · have := ih _ x hx
              simp only [List.map_cons, List.mem_cons]
              exact Or.inr this

/-- The first `queue.length` Round-Robin slices are exactly the first pass
over the queue: each task's first slice, in queue order. -/
theorem rrAux_take_fst {q : Nat} (hq : 1 ≤ q) :
    ∀ fuel queue, rrFuel queue ≤ fuel →
      (((rrAux q fuel queue).1.map (fun e => e.1)).take queue.length)
        = queue.map (fun e => e.1) := by
  intro fuel
  induction fuel with
  | zero =>
      intro queue hf
      have h0 : queue.length = 0 := by
        have := rrFuel_length_le queue
        omega
      rw [List.length_eq_zero.mp h0]
      simp
  | succ fuel ih =>
      intro queue hf
      cases queue with
      | nil => simp
      | cons hd rest =>
          obtain ⟨id, r⟩ := hd
          rw [rrFuel_cons] at hf
          rw [rrAux]
          by_cases h : 0 < r - min q r
          · rw [if_pos h]
            have hmin : min q r = q := by omega
            have hf2 : rrFuel (rest ++ [(id, r - min q r)]) ≤ fuel := by
              rw [rrFuel_append_singleton]
              simp only
              omega
            have hIH := ih (rest ++ [(id, r - min q r)]) hf2
            simp only [List.map_cons, List.length_cons, List.take_succ_cons]
            have hlen : (rest ++ [(id, r - min q r)]).length = rest.length + 1 := by
              simp
            rw [hlen] at hIH
            have := congrArg (List.take rest.length) hIH
            rw [List.take_take, Nat.min_eq_left (Nat.le_succ _)] at this
            rw [this, List.map_append]
            exact congrArg (id :: ·) (List.take_left' (by simp))
          · rw [if_neg h]
            have hf2 : rrFuel rest ≤ fuel := by omega
            simp only [List.map_cons, List.length_cons, List.take_succ_cons]
            exact congrArg (id :: ·) (ih rest hf2)

theorem scheduleRR_take_fst {q : Nat} (hq : 1 ≤ q) (tasks : List SchedTask) :
    (((scheduleRR q tasks).1.map (fun e => e.1)).take tasks.length)
      = tasks.map (fun t => t.task_id) := by
  rw [scheduleRR]
  have := rrAux_take_fst hq (rrFuel (tasks.map (fun t => (t.task_id, t.remaining))))
    (tasks.map (fun t => (t.task_id, t.remaining))) (Nat.le_refl _)
  rw [List.length_map] at this
  rw [this, List.map_map]
  rfl

theorem scheduleRR_fst_subset {q : Nat} {tasks : List SchedTask} {c : Nat}
    (hc : c ∈ (scheduleRR q tasks).1.map (fun e => e.1)) :
    c ∈ tasks.map (fun t => t.task_id) := by
  rw [scheduleRR] at hc
  obtain ⟨x, hx, hx2⟩ := List.mem_map.mp hc
  have := rrAux_fst_subset q _ _ x hx
  rw [List.map_map] at this
  rw [← hx2]
  exact this

/-! ### Pipeline characterization lemmas -/

theorem runEncrypt_ok {C : BlockCipher} {kdf : Bytes → Bytes → Bytes}
    {ivs : Nat → Bytes} {salt pw data : Bytes} {cs w : Nat} {alg : String}
    {q : Option Nat} {comp : List Nat} {entries : List (Nat × Nat)} {s2 : Scheduler}
    (hcs : 1 ≤ cs) (hne : data ≠ [])
    (hsched : scheduleTasks
        { algorithm := alg, time_quantum := q,
          tasks := registerTasks ((splitChunks cs data).map (fun c => c.length)) }
      = .ok (entries, s2)) :
    runEncrypt C kdf ivs salt pw data cs w alg q comp =
      { result := .ok (writeEncFile salt (splitChunks cs data).length
          (collectResults (splitChunks cs data).length
            (encArrivals C (kdf pw salt) ivs (splitChunks cs data) comp))),
        workersStarted := w,
        dispatched := entries.map (fun e => e.1) } := by
  have hemp : (splitChunks cs data).isEmpty = false := by
    rw [← Bool.not_eq_true, List.isEmpty_iff]
    exact splitChunks_ne_nil hcs hne
  rw [runEncrypt]
  simp only [hemp, Bool.false_eq_true, if_false, hsched]

theorem runDecrypt_ok {C : BlockCipher} {kdf : Bytes → Bytes → Bytes}
    {pw fileData : Bytes} {w : Nat} {alg : String}
    {q : Option Nat} {comp : List Nat} {entries : List (Nat × Nat)} {s2 : Scheduler}
    (hsched : scheduleTasks
        { algorithm := alg, time_quantum := q,
          tasks := registerTasks
            ((readFrames (beNat ((fileData.drop 16).take 4))
              ((fileData.drop 16).drop 4)).map (fun c => c.length)) }
      = .ok (entries, s2)) :
    runDecrypt C kdf pw fileData w alg q comp =
      { result := .ok (writeDecFile
          (readFrames (beNat ((fileData.drop 16).take 4))
            ((fileData.drop 16).drop 4)).length
          (collectResults
            (readFrames (beNat ((fileData.drop 16).take 4))
              ((fileData.drop 16).drop 4)).length
            (decArrivals C (kdf pw (fileData.take 16))
              (readFrames (beNat ((fileData.drop 16).take 4))
                ((fileData.drop 16).drop 4)) comp))),
        workersStarted := w,
        dispatched := entries.map (fun e => e.1),
        chunkCount := beNat ((fileData.drop 16).take 4) } := by
  rw [runDecrypt]
  simp only [hsched]

/-! ### Reassembly lemmas -/

theorem map_range_getD (l : List Bytes) :
    (List.range l.length).map (fun i => l.getD i []) = l := by
  refine List.ext_getElem (by simp) ?_
  intro i h1 h2
  simp only [List.getElem_map, List.getElem_range, List.getD_eq_getElem?_getD]
  rw [List.getElem?_eq_getElem h2]
  rfl

theorem writeDecFile_eq {n : Nat} {rs : List (Nat × Bytes)} {ps : List Bytes}
    (hn : ps.length = n)
    (h : ∀ i, i < n → lookupResult rs i = some (ps.getD i [])) :
    writeDecFile n rs = ps.flatten := by
  rw [writeDecFile]
  have : (List.range n).map (fun i => (lookupResult rs i).getD [])
      = (List.range n).map (fun i => ps.getD i []) := by
    refine List.map_congr_left ?_
    intro i hi
    rw [h i (List.mem_range.mp hi)]
    rfl
  rw [this, ← hn, map_range_getD]

theorem writeEncFile_eq {salt : Bytes} {n : Nat} {rs : List (Nat × Bytes)}
    {es : List Bytes}
    (hn : es.length = n)
    (h : ∀ i, i < n → lookupResult rs i = some (es.getD i [])) :
    writeEncFile salt n rs = salt ++ be32 n ++ (es.map encodeFrame).flatten := by
  rw [writeEncFile]
  have h2 : (List.range n).map (fun i =>
        match lookupResult rs i with
        | some d => encodeFrame d
        | none => [])
      = (List.range n).map (fun i => encodeFrame (es.getD i [])) := by
    refine List.map_congr_left ?_
    intro i hi
    rw [h i (List.mem_range.mp hi)]
  rw [h2]
  have h3 : (List.range n).map (fun i => encodeFrame (es.getD i []))
      = ((List.range n).map (fun i => es.getD i [])).map encodeFrame := by
    rw [List.map_map]
    rfl
  rw [h3, ← hn, map_range_getD]

theorem mem_enumFrom_of_mem {x : α} :
    ∀ {l : List α} (i : Nat), x ∈ l → ∃ j, (j, x) ∈ enumFrom i l := by
  intro l
  induction l with
  | nil => intro i h; simp at h
  | cons y ys ih =>
      intro i h
      rcases List.mem_cons.mp h with h | h
      · subst h; exact ⟨i, List.mem_cons_self _ _⟩
      · obtain ⟨j, hj⟩ := ih (i + 1) h
        exact ⟨j, List.mem_cons_of_mem _ hj⟩

/-! ### Decryption round trip on a well-formed encrypted file -/

theorem runDecrypt_roundtrip (C : BlockCipher) (kdf : Bytes → Bytes → Bytes)
    (pw salt : Bytes) (es ps : List Bytes) (w : Nat) (alg : String)
    (q : Option Nat) (comp : List Nat)
    (hsalt : salt.length = 16)
    (hlen : es.length = ps.length)
    (hn : ps.length < 2 ^ 32)
    (hes : ∀ e ∈ es, e.length < 2 ^ 32)
    (hdec : ∀ i, i < ps.length →
      decryptChunk C (kdf pw salt) (es.getD i []) = some (ps.getD i []))
    (halg : schedOk alg q)
    (hcov : coveredCompletion ps.length comp) :
    (runDecrypt C kdf pw (salt ++ be32 ps.length ++ (es.map encodeFrame).flatten)
        w alg q comp).result
      = .ok ps.flatten := by
  set fileData := salt ++ be32 ps.length ++ (es.map encodeFrame).flatten with hfd
  have h16 : fileData.take 16 = salt := by
    rw [hfd, List.append_assoc]; exact List.take_left' hsalt
  have hrest : fileData.drop 16 = be32 ps.length ++ (es.map encodeFrame).flatten := by
    rw [hfd, List.append_assoc]; exact List.drop_left' hsalt
  have hcnt : beNat ((fileData.drop 16).take 4) = ps.length := by
    rw [hrest, List.take_left' (be32_length ps.length)]
    exact beNat_be32 hn
  have hbody : (fileData.drop 16).drop 4 = (es.map encodeFrame).flatten := by
    rw [hrest]
    exact List.drop_left' (be32_length ps.length)
  have hchunks : readFrames (beNat ((fileData.drop 16).take 4))
      ((fileData.drop 16).drop 4) = es := by
    rw [hcnt, hbody, ← hlen]
    exact readFrames_flatten_encode es hes
  obtain ⟨entries, s2, heq⟩ := scheduleTasks_schedOk halg
    (registerTasks (es.map (fun c => c.length)))
  have hsched : scheduleTasks
      { algorithm := alg, time_quantum := q,
        tasks := registerTasks
          ((readFrames (beNat ((fileData.drop 16).take 4))
            ((fileData.drop 16).drop 4)).map (fun c => c.length)) }
      = .ok (entries, s2) := by
    rw [hchunks]
    exact heq
  rw [runDecrypt_ok hsched]
  simp only [hchunks, h16]
  rw [hlen]
  refine congrArg Except.ok (writeDecFile_eq rfl ?_)
  intro i hi
  obtain ⟨hvalid, hcover⟩ := hcov
  have hmem : (i, some (ps.getD i [])) ∈
      (decArrivals C (kdf pw salt) es comp).take ps.length := by
    rw [decArrivals, ← List.map_take]
    exact List.mem_map.mpr ⟨i, hcover i hi, by rw [hdec i hi]⟩
  have hP : ∀ p ∈ (decArrivals C (kdf pw salt) es comp).take ps.length,
      ∀ d, p.2 = some d → d = ps.getD p.1 [] := by
    intro p hp d hd
    rw [decArrivals, ← List.map_take] at hp
    obtain ⟨c, hc, hcp⟩ := List.mem_map.mp hp
    have hcn : c < ps.length := hvalid c (List.mem_of_mem_take hc)
    rw [← hcp] at hd ⊢
    simp only at hd ⊢
    rw [hdec c hcn] at hd
    cases hd
    rfl
  obtain ⟨d, hld, hPd⟩ :=
    lookupResult_collect (P := fun c d => d = ps.getD c []) hmem hP
  rw [hld, hPd]

/-! ### Encryption run characterized up to per-result IVs -/

theorem runEncrypt_roundtrip_file (C : BlockCipher) (kdf : Bytes → Bytes → Bytes)
    (ivs : Nat → Bytes) (salt pw data : Bytes) (cs w : Nat) (alg : String)
    (q : Option Nat) (comp : List Nat)
    (hcs : 1 ≤ cs) (hne : data ≠ [])
    (hivs : ∀ j, (ivs j).length = 16)
    (halg : schedOk alg q)
    (hcov : coveredCompletion (splitChunks cs data).length comp) :
    ∃ es : List Bytes,
      (runEncrypt C kdf ivs salt pw data cs w alg q comp).result
        = .ok (salt ++ be32 (splitChunks cs data).length ++ (es.map encodeFrame).flatten)
      ∧ es.length = (splitChunks cs data).length
      ∧ (∀ i, i < (splitChunks cs data).length →
          decryptChunk C (kdf pw salt) (es.getD i [])
            = some ((splitChunks cs data).getD i []))
      ∧ (∀ e ∈ es, e.length ≤ cs + 32) := by
  obtain ⟨entries, s2, heq⟩ := scheduleTasks_schedOk halg
    (registerTasks ((splitChunks cs data).map (fun c => c.length)))
  rw [runEncrypt_ok hcs hne heq]
  set n := (splitChunks cs data).length with hn
  set chunks := splitChunks cs data with hch
  set key := kdf pw salt with hkey
  set rs := collectResults n (encArrivals C key ivs chunks comp) with hrs
  have hlook : ∀ i, i < n →
      ∃ d, lookupResult rs i = some d ∧
        ∃ iv, iv.length = 16 ∧ d = encryptChunk C key iv (chunks.getD i []) := by
    intro i hi
    obtain ⟨hvalid, hcover⟩ := hcov
    obtain ⟨j, hj⟩ := mem_enumFrom_of_mem 0 (hcover i hi)
    have hmem : (i, some (encryptChunk C key (ivs j) (chunks.getD i [])))
        ∈ (encArrivals C key ivs chunks comp).take n := by
      rw [encArrivals, ← List.map_take, enumFrom_take]
      exact List.mem_map.mpr ⟨(j, i), hj, rfl⟩
    have hP : ∀ p ∈ (encArrivals C key ivs chunks comp).take n,
        ∀ d, p.2 = some d →
          ∃ iv, iv.length = 16 ∧ d = encryptChunk C key iv (chunks.getD p.1 []) := by
      intro p hp d hd
      rw [encArrivals, ← List.map_take, enumFrom_take] at hp
      obtain ⟨jc, hjc, hjp⟩ := List.mem_map.mp hp
      rw [← hjp] at hd ⊢
      simp only at hd ⊢
      cases hd
      exact ⟨ivs jc.1, hivs jc.1, rfl⟩
    exact lookupResult_collect
      (P := fun c d => ∃ iv, iv.length = 16 ∧ d = encryptChunk C key iv (chunks.getD c []))
      hmem hP
  refine ⟨(List.range n).map (fun i => (lookupResult rs i).getD []), ?_, by simp, ?_, ?_⟩
  · refine congrArg Except.ok (writeEncFile_eq (by simp) ?_)
    intro i hi
    obtain ⟨d, hd, _⟩ := hlook i hi
    have : ((List.range n).map (fun i => (lookupResult rs i).getD [])).getD i []
        = (lookupResult rs i).getD [] := by
      rw [List.getD_eq_getElem?_getD, List.getElem?_eq_getElem (by simpa using hi)]
      simp
    rw [this, hd]
    rfl
  · intro i hi
    obtain ⟨d, hd, iv, hiv, hdv⟩ := hlook i hi
    have hgd : ((List.range n).map (fun i => (lookupResult rs i).getD [])).getD i []
        = (lookupResult rs i).getD [] := by
      rw [List.getD_eq_getElem?_getD, List.getElem?_eq_getElem (by simpa using hi)]
      simp
    rw [hgd, hd]
    simp only [Option.getD_some, hdv]
    exact decryptChunk_encryptChunk C key iv (chunks.getD i []) hiv
  · intro e he
    obtain ⟨i, hi, hie⟩ := List.mem_map.mp he
    have hin : i < n := by simpa using List.mem_range.mp hi
    obtain ⟨d, hd, iv, hiv, hdv⟩ := hlook i hin
    rw [← hie, hd]
    simp only [Option.getD_some, hdv]
    have hchunk : (chunks.getD i []).length ≤ cs := by
      have hmemc : chunks.getD i [] ∈ chunks := by
        rw [List.getD_eq_getElem?_getD, List.getElem?_eq_getElem (by omega)]
        exact List.getElem_mem _
      exact splitChunks_mem_length hmemc
    have : (encryptChunk C key iv (chunks.getD i [])).length
        = 16 + (padBlock (chunks.getD i [])).length := by
      simp [encryptChunk, hiv, C.enc_length]
    rw [this, padBlock_length]
    omega

/-! ### Full-run round trip -/

theorem encrypt_decrypt_master {C : BlockCipher} {kdf : Bytes → Bytes → Bytes}
    {ivs : Nat → Bytes} {salt pw data : Bytes} {cs w w2 : Nat}
    {algE algD : String} {qE qD : Option Nat} {compE compD : List Nat}
    (hne : data ≠ []) (hcs : 1 ≤ cs) (hsalt : salt.length = 16)
    (hivs : ∀ j, (ivs j).length = 16)
    (hdata : data.length < 2 ^ 32) (hcsB : cs + 32 < 2 ^ 32)
    (halgE : schedOk algE qE) (halgD : schedOk algD qD)
    (hcovE : coveredCompletion (splitChunks cs data).length compE)
    (hcovD : coveredCompletion (splitChunks cs data).length compD) :
    ∃ file,
      (runEncrypt C kdf ivs salt pw data cs w algE qE compE).result = .ok file
      ∧ (runDecrypt C kdf pw file w2 algD qD compD).result = .ok data := by
  obtain ⟨es, hres, hlen, hdec, hbound⟩ :=
    runEncrypt_roundtrip_file C kdf ivs salt pw data cs w algE qE compE
      hcs hne hivs halgE hcovE
  refine ⟨_, hres, ?_⟩
  have hnlt : (splitChunks cs data).length < 2 ^ 32 :=
    Nat.lt_of_le_of_lt (splitChunks_length_le cs data) hdata
  have hes : ∀ e ∈ es, e.length < 2 ^ 32 := by
    intro e he
    have := hbound e he
    omega
  have := runDecrypt_roundtrip C kdf pw salt es (splitChunks cs data) w2 algD qD compD
    hsalt hlen hnlt hes hdec halgD hcovD
  rw [this, splitChunks_flatten hcs]

theorem coveredCompletion_range (n : Nat) : coveredCompletion n (List.range n) := by
  constructor
  · intro c hc; exact List.mem_range.mp hc
  · intro i hi
    have : (List.range n).take n = List.range n := by
      apply List.take_of_length_le
      simp
    rw [this]
    exact List.mem_range.mpr hi

theorem coveredCompletion_rr {q : Nat} (hq : 1 ≤ q) (sizes : List Nat) :
    coveredCompletion sizes.length
      ((scheduleRR q (registerTasks sizes)).1.map (fun e => e.1)) := by
  constructor
  · intro c hc
    have := scheduleRR_fst_subset (q := q) hc
    rw [registerTasks_ids] at this
    exact List.mem_range.mp this
  · intro i hi
    have htake := scheduleRR_take_fst hq (registerTasks sizes)
    rw [registerTasks_length] at htake
    have hids : (registerTasks sizes).map (fun t => t.task_id)
        = List.range sizes.length := registerTasks_ids sizes
    rw [hids] at htake
    rw [htake]
    exact List.mem_range.mpr hi

/-! ### Claim C1 -/

/-- C1: for every non-empty plaintext byte string, every password, and every
positive chunk size (within the representable `u32` frame bounds of the file
format), decrypting the encrypted file with the same password yields exactly
the original bytes — stated for the default FCFS schedule with results
collected in dispatch order, and for any cipher satisfying the AES-CBC
interface; and encrypting a zero-length input fails with the empty-input
error (`ValueError("File is empty")`, the spec's `EmptyInputError`) rather
than producing an output file. -/
theorem c1_round_trip (C : BlockCipher) (kdf : Bytes → Bytes → Bytes)
    (ivs : Nat → Bytes) (salt password data : Bytes) (cs w : Nat)
    (hcs : 1 ≤ cs) (hne : data ≠ []) (hsalt : salt.length = 16)
    (hivs : ∀ j, (ivs j).length = 16)
    (hdata : data.length < 2 ^ 32) (hcsB : cs + 32 < 2 ^ 32) :
    (∃ file,
      (runEncrypt C kdf ivs salt password data cs w "FCFS" none
          (List.range (splitChunks cs data).length)).result = .ok file
      ∧ (runDecrypt C kdf password file w "FCFS" none
          (List.range (splitChunks cs data).length)).result = .ok data)
    ∧ ∀ cs2 w2 alg q comp,
        runEncrypt C kdf ivs salt password [] cs2 w2 alg q comp
          = { result := .error .emptyInput, workersStarted := 0,
              dispatched := [] } := by
  constructor
  · exact encrypt_decrypt_master hne hcs hsalt hivs hdata hcsB
      (Or.inl rfl) (Or.inl rfl)
      (coveredCompletion_range (splitChunks cs data).length)
      (coveredCompletion_range (splitChunks cs data).length)
  · intro cs2 w2 alg q comp
    rfl

/-- C1 witness: concrete instantiation (identity cipher, 3-byte plaintext,
chunk size 2, one worker). -/
theorem c1_round_trip_witness :
    (1 ≤ 2 ∧ ([1, 2, 3] : Bytes) ≠ [] ∧ (List.replicate 16 0 : Bytes).length = 16
      ∧ ([1, 2, 3] : Bytes).length < 2 ^ 32 ∧ 2 + 32 < 2 ^ 32)
    ∧ ((∃ file,
        (runEncrypt idCipher (fun _ _ => []) (fun _ => List.replicate 16 0)
            (List.replicate 16 0) [] [1, 2, 3] 2 1 "FCFS" none
            (List.range (splitChunks 2 [1, 2, 3]).length)).result = .ok file
        ∧ (runDecrypt idCipher (fun _ _ => []) [] file 1 "FCFS" none
            (List.range (splitChunks 2 [1, 2, 3]).length)).result = .ok [1, 2, 3])
      ∧ ∀ cs2 w2 alg q comp,
          runEncrypt idCipher (fun _ _ => []) (fun _ => List.replicate 16 0)
              (List.replicate 16 0) [] [] cs2 w2 alg q comp
            = { result := .error .emptyInput, workersStarted := 0,
                dispatched := [] }) :=
  ⟨⟨by decide, by decide, by decide, by decide, by decide⟩,
    c1_round_trip idCipher (fun _ _ => []) (fun _ => List.replicate 16 0)
      (List.replicate 16 0) [] [1, 2, 3] 2 1
      (by decide) (by decide) (by decide) (fun _ => rfl)
      (by decide) (by decide)⟩

/-! ### Claim C4 -/

/-- C4 (amended): for a fixed input file, password and chunk size the
decrypted plaintext equals the original bytes for every scheduling algorithm
the code accepts and every completion order that sees each chunk id among
the first `chunk_count` collected results — which holds for FCFS and SJF
under any completion permutation (hence any worker count), and for Round
Robin when results are collected in dispatch order (one worker), since the
first `chunk_count` Round-Robin slices cover every task once.  Because the
source's Round Robin dispatches duplicate entries and the collector pops
only `chunk_count` results, completion orders reachable with two or more
workers can drop a chunk, so the claimed invariance over all worker counts
fails (see the counterexample). -/
theorem c4_output_invariance :
    (∀ (C : BlockCipher) (kdf : Bytes → Bytes → Bytes) (ivs : Nat → Bytes)
        (salt password data : Bytes) (cs w w2 : Nat) (algE algD : String)
        (qE qD : Option Nat) (compE compD : List Nat),
        data ≠ [] → 1 ≤ cs → salt.length = 16 → (∀ j, (ivs j).length = 16) →
        data.length < 2 ^ 32 → cs + 32 < 2 ^ 32 →
        schedOk algE qE → schedOk algD qD →
        coveredCompletion (splitChunks cs data).length compE →
        coveredCompletion (splitChunks cs data).length compD →
        ∃ file,
          (runEncrypt C kdf ivs salt password data cs w algE qE compE).result
            = .ok file
          ∧ (runDecrypt C kdf password file w2 algD qD compD).result = .ok data)
    ∧ (∀ n, coveredCompletion n (List.range n))
    ∧ (∀ q sizes, 1 ≤ q →
        coveredCompletion sizes.length
          ((scheduleRR q (registerTasks sizes)).1.map (fun e => e.1))) :=
  ⟨fun _ _ _ _ _ _ _ _ _ _ _ _ _ _ _
      hne hcs hsalt hivs hdata hcsB halgE halgD hcovE hcovD =>
    encrypt_decrypt_master hne hcs hsalt hivs hdata hcsB halgE halgD hcovE hcovD,
   coveredCompletion_range,
   fun _ sizes hq => coveredCompletion_rr hq sizes⟩

/-- C4 witness: concrete instantiation (SJF on both runs, identity cipher,
two chunks), plus concrete coverage facts for the other two conjuncts. -/
theorem c4_output_invariance_witness :
    (([1, 2, 3] : Bytes) ≠ [] ∧ 1 ≤ 2 ∧ schedOk "SJF" (none : Option Nat))
    ∧ (∃ file,
        (runEncrypt idCipher (fun _ _ => []) (fun _ => List.replicate 16 0)
            (List.replicate 16 0) [] [1, 2, 3] 2 3 "SJF" none
            (List.range 2)).result = .ok file
        ∧ (runDecrypt idCipher (fun _ _ => []) [] file 2 "SJF" none
            (List.range 2)).result = .ok [1, 2, 3])
    ∧ coveredCompletion 5 (List.range 5)
    ∧ coveredCompletion 2
        ((scheduleRR 1 (registerTasks [2, 1])).1.map (fun e => e.1)) :=
  ⟨⟨by decide, by decide, Or.inr (Or.inl rfl)⟩,
    c4_output_invariance.1 idCipher (fun _ _ => []) (fun _ => List.replicate 16 0)
      (List.replicate 16 0) [] [1, 2, 3] 2 3 2 "SJF" "SJF" none none
      (List.range 2) (List.range 2)
      (by decide) (by decide) rfl (fun _ => rfl) (by decide) (by decide)
      (Or.inr (Or.inl rfl)) (Or.inr (Or.inl rfl))
      (coveredCompletion_range 2) (coveredCompletion_range 2),
    c4_output_invariance.2.1 5,
    c4_output_invariance.2.2 1 [2, 1] (by decide)⟩

/-- C4 counterexample: the claim as stated fails on the code.  For plaintext
`[1,2,3]`, chunk size 2, Round Robin with quantum 1, the schedule is
`[0,1,0]` (chunk 0 dispatched twice).  With two workers the first two
collected results can both be for chunk 0 (completion order `[0,0,1]`: one
worker finishes both slices of chunk 0 before the other finishes chunk 1),
so the encrypted file misses chunk 1's frame and decrypting it yields
`[1,2]`, while the same input under FCFS with one worker decrypts to
`[1,2,3]` — the decrypted bytes do depend on the algorithm/worker count. -/
theorem c4_counterexample :
    (runDecrypt idCipher (fun _ _ => []) []
        ((runEncrypt idCipher (fun _ _ => []) (fun _ => List.replicate 16 0)
            (List.replicate 16 0) [] [1, 2, 3] 2 2 "Round Robin" (some 1)
            [0, 0, 1]).result.toOption.getD [])
        1 "FCFS" none [0, 1]).result = .ok [1, 2]
    ∧ (runDecrypt idCipher (fun _ _ => []) []
        ((runEncrypt idCipher (fun _ _ => []) (fun _ => List.replicate 16 0)
            (List.replicate 16 0) [] [1, 2, 3] 2 1 "FCFS" none
            [0, 1]).result.toOption.getD [])
        1 "FCFS" none [0, 1]).result = .ok [1, 2, 3]
    ∧ ([1, 2] : Bytes) ≠ [1, 2, 3]
    ∧ (runEncrypt idCipher (fun _ _ => []) (fun _ => List.replicate 16 0)
        (List.replicate 16 0) [] [1, 2, 3] 2 2 "Round Robin" (some 1)
        [0, 0, 1]).dispatched = [0, 1, 0] :=
  ⟨by decide, by decide, by decide, by decide⟩

/-! ### Claim C8 -/

/-- C8: for every list of task sizes registered in chunk-id order
`0..N-1`, FCFS scheduling returns the dispatch order `0..N-1` (stable sort
by arrival order, which equals registration order). -/
theorem c8_fcfs_order (sizes : List Nat) :
    (scheduleFCFS (registerTasks sizes)).map (fun e => e.1)
      = List.range sizes.length :=
  scheduleFCFS_registerTasks_ids sizes

/-! ### Claim C7 -/

/-- C7: SJF scheduling returns the task entries sorted by ascending size
(first conjunct), containing exactly the registered tasks (second conjunct,
a permutation), with ties broken by the input (registration) order (third
conjunct: the subsequence at any fixed size is untouched); in particular for
three tasks registered in order with sizes `[500, 100, 900]` the dispatch
order is `[1, 0, 2]` (fourth conjunct). -/
theorem c7_sjf_order (tasks : List SchedTask) (k : Nat) :
    List.Pairwise (fun a b : Nat × Nat => a.2 ≤ b.2) (scheduleSJF tasks)
    ∧ List.Perm (scheduleSJF tasks) (tasks.map (fun t => (t.task_id, t.size)))
    ∧ (scheduleSJF tasks).filter (fun e => e.2 == k)
        = (tasks.map (fun t => (t.task_id, t.size))).filter (fun e => e.2 == k)
    ∧ (scheduleSJF (registerTasks [500, 100, 900])).map (fun e => e.1)
        = [1, 0, 2] := by
  refine ⟨?_, ?_, ?_, by decide⟩
  · rw [scheduleSJF, List.pairwise_map]
    exact stableSortBy_sorted (fun t => t.size) tasks
  · exact (stableSortBy_perm (fun t => t.size) tasks).map _
  · rw [scheduleSJF, List.filter_map, List.filter_map]
    have hc : ((fun e : Nat × Nat => e.2 == k) ∘ fun t : SchedTask => (t.task_id, t.size))
        = fun t : SchedTask => t.size == k := rfl
    rw [hc]
    rw [stableSortBy_stable (fun t => t.size) k tasks]

/-! ### Claim C2 -/

/-- C2 (amended): for FCFS and SJF the dispatch order handed to the worker
pool contains exactly one occurrence of each registered task id (FCFS: the
identity order; SJF: a permutation of the ids).  Round Robin, however, emits
one schedule entry per quantum slice and the dispatch loop enqueues every
entry, so a task whose size exceeds the quantum is enqueued to the workers
once per slice: with chunk sizes `[2, 1]` and quantum 1 the dispatch order
is `[0, 1, 0]` — chunk 0 twice, its entries not collapsed to the rank of
its final slice. -/
theorem c2_dispatch_multiplicity :
    (∀ sizes : List Nat,
        (scheduleFCFS (registerTasks sizes)).map (fun e => e.1)
          = List.range sizes.length)
    ∧ (∀ sizes : List Nat,
        List.Perm ((scheduleSJF (registerTasks sizes)).map (fun e => e.1))
          (List.range sizes.length))
    ∧ (scheduleRR 1 (registerTasks [2, 1])).1.map (fun e => e.1) = [0, 1, 0]
    ∧ (runEncrypt idCipher (fun _ _ => []) (fun _ => List.replicate 16 0)
        (List.replicate 16 0) [] [1, 2, 3] 2 1 "Round Robin" (some 1)
        []).dispatched = [0, 1, 0] := by
  refine ⟨scheduleFCFS_registerTasks_ids, ?_, by decide, by decide⟩
  intro sizes
  have h := scheduleSJF_ids_perm (registerTasks sizes)
  rw [registerTasks_ids] at h
  exact h

/-- C2 counterexample: under Round Robin with quantum 1 on chunks of sizes
`[2, 1]`, the dispatch order handed to the worker pool by
`encrypt_file_parallel` is `[0, 1, 0]`: task id 0 occurs twice, not once. -/
theorem c2_counterexample :
    (runEncrypt idCipher (fun _ _ => []) (fun _ => List.replicate 16 0)
        (List.replicate 16 0) [] [1, 2, 3] 2 1 "Round Robin" (some 1)
        []).dispatched.count 0 = 2
    ∧ (runEncrypt idCipher (fun _ _ => []) (fun _ => List.replicate 16 0)
        (List.replicate 16 0) [] [1, 2, 3] 2 1 "Round Robin" (some 1)
        []).dispatched = [0, 1, 0] := by
  exact ⟨by decide, by decide⟩

/-! ### Claim C9 -/

/-- C9 (amended): FCFS and SJF scheduling return the scheduler state
unchanged, so repeated calls return the same sequence.  Round Robin's
`self.tasks.copy()` is a shallow copy: the loop mutates the shared task
objects, zeroing every `remaining_time`; after one call on tasks of sizes
`[300, 500]` with quantum 200 both remainings are 0, and a second identical
call returns a different sequence (one zero-width slice per task instead of
the five quantum slices). -/
theorem c9_schedule_purity :
    (∀ s : Scheduler, s.algorithm = "FCFS" →
        scheduleTasks s = .ok (scheduleFCFS s.tasks, s))
    ∧ (∀ s : Scheduler, s.algorithm = "SJF" →
        scheduleTasks s = .ok (scheduleSJF s.tasks, s))
    ∧ (scheduleTasks
          { algorithm := "Round Robin",
            time_quantum := some 200,
            tasks := registerTasks [300, 500] }
        = .ok ([(0, 200), (1, 200), (0, 100), (1, 200), (1, 100)],
            { algorithm := "Round Robin",
              time_quantum := some 200,
              tasks := [{ task_id := 0, size := 300, arrival := 0, remaining := 0 },
                        { task_id := 1, size := 500, arrival := 1, remaining := 0 }] }))
    ∧ (scheduleTasks
          { algorithm := "Round Robin",
            time_quantum := some 200,
            tasks := [{ task_id := 0, size := 300, arrival := 0, remaining := 0 },
                      { task_id := 1, size := 500, arrival := 1, remaining := 0 }] }
        = .ok ([(0, 0), (1, 0)],
            { algorithm := "Round Robin",
              time_quantum := some 200,
              tasks := [{ task_id := 0, size := 300, arrival := 0, remaining := 0 },
                        { task_id := 1, size := 500, arrival := 1, remaining := 0 }] })) := by
  refine ⟨?_, ?_, by decide, by decide⟩
  · intro s h
    rw [scheduleTasks, if_pos h]
  · intro s h
    rw [scheduleTasks, if_neg (by rw [h]; decide), if_pos h]

/-- C9 witness: the FCFS and SJF conjuncts applied at concrete schedulers. -/
theorem c9_schedule_purity_witness :
    (({ algorithm := "FCFS", time_quantum := none, tasks := registerTasks [7, 3] } : Scheduler).algorithm = "FCFS")
    ∧ scheduleTasks
        { algorithm := "FCFS", time_quantum := none, tasks := registerTasks [7, 3] }
      = .ok (scheduleFCFS (registerTasks [7, 3]),
          { algorithm := "FCFS", time_quantum := none, tasks := registerTasks [7, 3] })
    ∧ scheduleTasks
        { algorithm := "SJF", time_quantum := none, tasks := registerTasks [7, 3] }
      = .ok (scheduleSJF (registerTasks [7, 3]),
          { algorithm := "SJF", time_quantum := none, tasks := registerTasks [7, 3] }) :=
  ⟨rfl,
    c9_schedule_purity.1
      { algorithm := "FCFS", time_quantum := none, tasks := registerTasks [7, 3] } rfl,
    c9_schedule_purity.2.1
      { algorithm := "SJF", time_quantum := none, tasks := registerTasks [7, 3] } rfl⟩

/-- C9 counterexample: Round Robin mutates the registered tasks (their
`remaining_time` drops from `[300, 500]` to `[0, 0]`) and a second identical
`schedule_tasks` call returns a different sequence (2 entries instead of 5). -/
theorem c9_counterexample :
    (scheduleTasks
        { algorithm := "Round Robin", time_quantum := some 200, tasks := registerTasks [300, 500] }).toOption.map
        (fun p => p.2.tasks.map (fun t => t.remaining)) = some [0, 0]
    ∧ ([0, 0] : List Nat) ≠ (registerTasks [300, 500]).map (fun t => t.remaining)
    ∧ (scheduleTasks
        { algorithm := "Round Robin", time_quantum := some 200, tasks := registerTasks [300, 500] }).toOption.map
        (fun p => p.1)
      = some [(0, 200), (1, 200), (0, 100), (1, 200), (1, 100)]
    ∧ (scheduleTasks
        { algorithm := "Round Robin",
          time_quantum := some 200,
          tasks := [{ task_id := 0, size := 300, arrival := 0, remaining := 0 },
                    { task_id := 1, size := 500, arrival := 1, remaining := 0 }] }).toOption.map
        (fun p => p.1)
      = some [(0, 0), (1, 0)]
    ∧ ([(0, 0), (1, 0)] : List (Nat × Nat))
        ≠ [(0, 200), (1, 200), (0, 100), (1, 200), (1, 100)] := by
  exact ⟨by decide, by decide, by decide, by decide, by decide⟩

/-! ### Claim C5 -/

/-- C5 (amended): padding removal in `_decrypt_chunk` reads the trailing byte
as `p` and unconditionally strips with the Python slice `[:-p]`, performing
no validation whatsoever: it succeeds on every non-empty buffer (first and
last conjuncts — in particular whenever `p` is 0, exceeds the block size,
exceeds the buffer length, or the last `p` bytes are not all `p`); its only
failure is the `IndexError` on an empty buffer (second conjunct); the exact
result is the empty buffer for `p = 0` and the first `len - p` bytes
otherwise (third conjunct); on correctly padded data this recovers the
plaintext (fourth conjunct).  No `PaddingValidationError` exists in the
code. -/
theorem c5_unpad_no_validation (d : Bytes) (x : Nat) (h : d ≠ []) :
    (pythonUnpad d).isSome
    ∧ pythonUnpad [] = none
    ∧ pythonUnpad (d ++ [x])
        = some (if x = 0 then [] else (d ++ [x]).take (d.length + 1 - x))
    ∧ (∀ e : Bytes, pythonUnpad (padBlock e) = some e)
    ∧ (∀ (C : BlockCipher) (key iv ct : Bytes), iv.length = 16 →
        ct.length % 16 = 0 → ct ≠ [] →
        (decryptChunk C key (iv ++ ct)).isSome) := by
  have hsome : ∀ l : Bytes, l ≠ [] → (pythonUnpad l).isSome := by
    intro l hl
    rw [pythonUnpad]
    cases hlast : l.getLast? with
    | none => exact absurd (List.getLast?_eq_none_iff.mp hlast) hl
    | some p => rfl
  refine ⟨hsome d h, rfl, ?_, pythonUnpad_padBlock, ?_⟩
  · rw [pythonUnpad, List.getLast?_concat]
    simp
  · intro C key iv ct hiv hct hne
    have hlen : (iv ++ ct).length = 16 + ct.length := by simp [hiv]
    rw [decryptChunk, if_neg (by omega), if_neg (by omega),
      List.take_left' hiv, List.drop_left' hiv]
    apply hsome
    intro hc
    have := C.dec_length key iv ct
    rw [hc] at this
    simp at this
    exact hne (List.eq_nil_of_length_eq_zero this.symm)

/-- C5 witness: the amended statement applied at a concrete buffer. -/
theorem c5_unpad_no_validation_witness :
    ([1, 2, 3] : Bytes) ≠ []
    ∧ ((pythonUnpad [1, 2, 3]).isSome
      ∧ pythonUnpad [] = none
      ∧ pythonUnpad ([1, 2, 3] ++ [5])
          = some (if 5 = 0 then [] else (([1, 2, 3] : Bytes) ++ [5]).take (3 + 1 - 5))
      ∧ (∀ e : Bytes, pythonUnpad (padBlock e) = some e)
      ∧ (∀ (C : BlockCipher) (key iv ct : Bytes), iv.length = 16 →
          ct.length % 16 = 0 → ct ≠ [] →
          (decryptChunk C key (iv ++ ct)).isSome)) :=
  ⟨by decide, c5_unpad_no_validation [1, 2, 3] 5 (by decide)⟩

/-- C5 counterexample: the claim's required failures do not happen.  With the
identity cipher: a decrypted buffer ending in 0 (`p = 0`), one ending in 17
(`p` greater than the block size 16 and greater than the buffer length), and
one ending in 2 whose last two bytes are `[9, 2]` (mismatched padding) are
all accepted by `_decrypt_chunk`, returning a value instead of raising
`PaddingValidationError`. -/
theorem c5_counterexample :
    decryptChunk idCipher [] (List.replicate 16 0 ++ List.replicate 16 0)
      = some []
    ∧ decryptChunk idCipher [] (List.replicate 16 0 ++ (List.replicate 15 0 ++ [17]))
      = some []
    ∧ decryptChunk idCipher [] (List.replicate 16 0 ++ (List.replicate 14 0 ++ [9, 2]))
      = some (List.replicate 14 0) := by
  exact ⟨by decide, by decide, by decide⟩

/-! ### Claim C6 -/

theorem scheduleTasks_unknown {alg : String} {q : Option Nat}
    {tasks : List SchedTask}
    (h1 : alg ≠ "FCFS") (h2 : alg ≠ "SJF") (h3 : alg ≠ "Round Robin") :
    scheduleTasks { algorithm := alg, time_quantum := q, tasks := tasks }
      = .error .unknownAlgorithm := by
  rw [scheduleTasks, if_neg h1, if_neg h2, if_neg h3]

theorem runEncrypt_err {C : BlockCipher} {kdf : Bytes → Bytes → Bytes}
    {ivs : Nat → Bytes} {salt pw data : Bytes} {cs w : Nat} {alg : String}
    {q : Option Nat} {comp : List Nat} {e : SchedError}
    (hcs : 1 ≤ cs) (hne : data ≠ [])
    (hsched : scheduleTasks
        { algorithm := alg, time_quantum := q,
          tasks := registerTasks ((splitChunks cs data).map (fun c => c.length)) }
      = .error e) :
    runEncrypt C kdf ivs salt pw data cs w alg q comp =
      { result := .error (.sched e), workersStarted := w, dispatched := [] } := by
  have hemp : (splitChunks cs data).isEmpty = false := by
    rw [← Bool.not_eq_true, List.isEmpty_iff]
    exact splitChunks_ne_nil hcs hne
  rw [runEncrypt]
  simp only [hemp, Bool.false_eq_true, if_false, hsched]

/-- C6 (amended): the empty-input check fires before any worker thread is
started (zero workers at the time of the error, first conjunct) — also when
it is triggered by a chunk size of 0, where the first `f.read(0)` returns
the empty string and even a non-empty file is reported empty (second
conjunct); but the unknown-algorithm and missing-quantum errors are raised
by `schedule_tasks`, which `encrypt_file_parallel` calls only after starting
all `max_workers` workers (third and fourth conjuncts: `workersStarted = w`
at the error), though still before any chunk is dispatched and with no
output produced; a malformed decryption header is never detected at all —
`decrypt_file_parallel` parses any byte string without error (fifth
conjunct). -/
theorem c6_error_timing :
    (∀ (C : BlockCipher) (kdf : Bytes → Bytes → Bytes) (ivs : Nat → Bytes)
        (salt password : Bytes) (cs w : Nat) (alg : String) (q : Option Nat)
        (comp : List Nat),
        runEncrypt C kdf ivs salt password [] cs w alg q comp
          = { result := .error .emptyInput, workersStarted := 0,
              dispatched := [] })
    ∧ (∀ (C : BlockCipher) (kdf : Bytes → Bytes → Bytes) (ivs : Nat → Bytes)
        (salt password data : Bytes) (w : Nat) (alg : String) (q : Option Nat)
        (comp : List Nat),
        runEncrypt C kdf ivs salt password data 0 w alg q comp
          = { result := .error .emptyInput, workersStarted := 0,
              dispatched := [] })
    ∧ (∀ (C : BlockCipher) (kdf : Bytes → Bytes → Bytes) (ivs : Nat → Bytes)
        (salt password data : Bytes) (cs w : Nat) (alg : String)
        (q : Option Nat) (comp : List Nat),
        1 ≤ cs → data ≠ [] → alg ≠ "FCFS" → alg ≠ "SJF" → alg ≠ "Round Robin" →
        runEncrypt C kdf ivs salt password data cs w alg q comp
          = { result := .error (.sched .unknownAlgorithm),
              workersStarted := w, dispatched := [] })
    ∧ (∀ (C : BlockCipher) (kdf : Bytes → Bytes → Bytes) (ivs : Nat → Bytes)
        (salt password data : Bytes) (cs w : Nat) (comp : List Nat),
        1 ≤ cs → data ≠ [] →
        runEncrypt C kdf ivs salt password data cs w "Round Robin" none comp
          = { result := .error (.sched .missingQuantum),
              workersStarted := w, dispatched := [] })
    ∧ (∀ (C : BlockCipher) (kdf : Bytes → Bytes → Bytes)
        (password fileData : Bytes) (w : Nat) (comp : List Nat),
        ∃ v, (runDecrypt C kdf password fileData w "FCFS" none comp).result
          = .ok v) := by
  refine ⟨fun _ _ _ _ _ _ _ _ _ _ => rfl, ?_, ?_, ?_, ?_⟩
  · intro C kdf ivs salt password data w alg q comp
    rw [runEncrypt, splitChunks_zero]
    rfl
  · intro C kdf ivs salt password data cs w alg q comp hcs hne h1 h2 h3
    exact runEncrypt_err hcs hne (scheduleTasks_unknown h1 h2 h3)
  · intro C kdf ivs salt password data cs w comp hcs hne
    exact runEncrypt_err hcs hne rfl
  · intro C kdf password fileData w comp
    rw [runDecrypt_ok (scheduleTasks_fcfs none _)]
    exact ⟨_, rfl⟩

/-- C6 witness: the amended statement's conditional conjuncts applied at a
concrete chunk size 0 on a non-empty file, a concrete unknown algorithm, a
concrete missing quantum, and a concrete malformed (1-byte) header. -/
theorem c6_error_timing_witness :
    (([9] : Bytes) ≠ [] ∧ ("LIFO" : String) ≠ "FCFS" ∧ (1 : Nat) ≤ 4)
    ∧ runEncrypt idCipher (fun _ _ => []) (fun _ => List.replicate 16 0)
        (List.replicate 16 0) [] [9] 0 4 "FCFS" none []
      = { result := .error .emptyInput, workersStarted := 0,
          dispatched := [] }
    ∧ runEncrypt idCipher (fun _ _ => []) (fun _ => List.replicate 16 0)
        (List.replicate 16 0) [] [9] 4 4 "LIFO" none []
      = { result := .error (.sched .unknownAlgorithm), workersStarted := 4,
          dispatched := [] }
    ∧ runEncrypt idCipher (fun _ _ => []) (fun _ => List.replicate 16 0)
        (List.replicate 16 0) [] [9] 4 4 "Round Robin" none []
      = { result := .error (.sched .missingQuantum), workersStarted := 4,
          dispatched := [] }
    ∧ (∃ v, (runDecrypt idCipher (fun _ _ => []) [] [77] 4 "FCFS" none
        []).result = .ok v) :=
  ⟨⟨by decide, by decide, by decide⟩,
    c6_error_timing.2.1 idCipher (fun _ _ => []) (fun _ => List.replicate 16 0)
      (List.replicate 16 0) [] [9] 4 "FCFS" none [],
    c6_error_timing.2.2.1 idCipher (fun _ _ => []) (fun _ => List.replicate 16 0)
      (List.replicate 16 0) [] [9] 4 4 "LIFO" none []
      (by decide) (by decide) (by decide) (by decide) (by decide),
    c6_error_timing.2.2.2.1 idCipher (fun _ _ => []) (fun _ => List.replicate 16 0)
      (List.replicate 16 0) [] [9] 4 4 [] (by decide) (by decide),
    c6_error_timing.2.2.2.2 idCipher (fun _ _ => []) [] [77] 4 []⟩

/-- C6 counterexample: with four workers and the unknown algorithm "LIFO" on
a non-empty input, the error is raised with all four workers already started
— not before any worker thread is started as the claim requires. -/
theorem c6_counterexample :
    (runEncrypt idCipher (fun _ _ => []) (fun _ => List.replicate 16 0)
        (List.replicate 16 0) [] [9] 4 4 "LIFO" none []).workersStarted = 4
    ∧ (runEncrypt idCipher (fun _ _ => []) (fun _ => List.replicate 16 0)
        (List.replicate 16 0) [] [9] 4 4 "LIFO" none []).result
      = .error (.sched .unknownAlgorithm)
    ∧ (4 : Nat) ≠ 0 := by
  exact ⟨by decide, by decide, by decide⟩

/-! ### Claim C3 -/

/-- C3 (amended): a failed WorkResult does not fail the run.  The collection
loop keeps only successful results, so a chunk id whose results are all
failures never enters the results dict (first conjunct); a chunk whose
decryption raises never produces a successful arrival (second conjunct); and
the decryption run always returns `.ok` and writes the output file (third
conjunct) — the failed chunks' bytes are silently omitted from the
reassembled output (each missing id contributes nothing to the writer).  No
`WorkerTaskError` exists in the code. -/
theorem c3_failure_swallowed :
    (∀ (n : Nat) (arrivals : List (Nat × Option Bytes)) (j : Nat),
        (∀ d : Bytes, (j, some d) ∉ arrivals) →
        lookupResult (collectResults n arrivals) j = none)
    ∧ (∀ (C : BlockCipher) (key : Bytes) (chunks : List Bytes)
        (comp : List Nat) (j : Nat),
        decryptChunk C key (chunks.getD j []) = none →
        ∀ d : Bytes, (j, some d) ∉ decArrivals C key chunks comp)
    ∧ (∀ (C : BlockCipher) (kdf : Bytes → Bytes → Bytes)
        (password fileData : Bytes) (w : Nat) (comp : List Nat),
        ∃ v, (runDecrypt C kdf password fileData w "SJF" none comp).result
          = .ok v) := by
  refine ⟨?_, ?_, ?_⟩
  · intro n arrivals j hno
    cases hl : lookupResult (collectResults n arrivals) j with
    | none => rfl
    | some d =>
        have h1 := collectResults_mem (lookupResult_mem hl)
        exact absurd (List.mem_of_mem_take h1) (hno d)
  · intro C key chunks comp j hfail d hmem
    rw [decArrivals] at hmem
    obtain ⟨c, _, hc⟩ := List.mem_map.mp hmem
    have hcj : c = j := congrArg Prod.fst hc
    have hv : decryptChunk C key (chunks.getD c []) = some d :=
      congrArg Prod.snd hc
    rw [hcj, hfail] at hv
    cases hv
  · intro C kdf password fileData w comp
    rw [runDecrypt_ok (scheduleTasks_sjf none _)]
    exact ⟨_, rfl⟩

/-- C3 witness: collection drops failed chunk 1 of 2 and the run still
returns `.ok`. -/
theorem c3_failure_swallowed_witness :
    (∀ d : Bytes, ((1 : Nat), some d) ∉ ([(0, some [5]), (1, none)]
      : List (Nat × Option Bytes)))
    ∧ lookupResult (collectResults 2 [(0, some [5]), (1, none)]) 1 = none
    ∧ (∃ v, (runDecrypt idCipher (fun _ _ => []) [] [7] 1 "SJF" none
        []).result = .ok v) :=
  ⟨fun d => by simp,
    c3_failure_swallowed.1 2 [(0, some [5]), (1, none)] 1 (fun d => by simp),
    c3_failure_swallowed.2.2 idCipher (fun _ _ => []) [] [7] 1 []⟩

/-- C3 counterexample: an encrypted file of five chunks (plaintexts `[i]`)
whose fourth frame is corrupted to the 3-byte buffer `[1,2,3]`: its worker
result is a failure (`decryptChunk = none`, second conjunct), yet the run
does not fail — it returns `.ok` with the output file written and chunk 3's
bytes silently omitted (`[0,1,2,4]` instead of five chunks), instead of the
claimed `WorkerTaskError{[3]}` with no output file. -/
theorem c3_counterexample :
    (runDecrypt idCipher (fun _ _ => []) []
        (List.replicate 16 0 ++ be32 5 ++
          ([encodeFrame (encryptChunk idCipher [] (List.replicate 16 0) [0]),
            encodeFrame (encryptChunk idCipher [] (List.replicate 16 0) [1]),
            encodeFrame (encryptChunk idCipher [] (List.replicate 16 0) [2]),
            encodeFrame [1, 2, 3],
            encodeFrame (encryptChunk idCipher [] (List.replicate 16 0) [4])]).flatten)
        2 "FCFS" none [0, 1, 2, 3, 4]).result = .ok [0, 1, 2, 4]
    ∧ decryptChunk idCipher [] [1, 2, 3] = none := by
  exact ⟨by decide, by decide⟩

/-! ### Claim C10 -/

/-- C10 (amended): for input files of at most 16 bytes,
`decrypt_file_parallel` raises no error: the chunk-count read returns the
empty string, which decodes to 0, no chunk is dispatched, the output file is
written empty and the returned chunk count is 0.  For files of 17 to 19
bytes, however, the chunk count decodes from the 1–3 bytes present after the
salt and can be nonzero (see the counterexample), so the claim's "decode to
zero / chunk count 0" part does not extend to all files shorter than the
20-byte header. -/
theorem c10_short_file (C : BlockCipher) (kdf : Bytes → Bytes → Bytes)
    (password fileData : Bytes) (w : Nat) (comp : List Nat)
    (h : fileData.length ≤ 16) :
    runDecrypt C kdf password fileData w "FCFS" none comp
      = { result := .ok [], workersStarted := w, dispatched := [],
          chunkCount := 0 } := by
  have hdrop : fileData.drop 16 = [] := by
    rw [List.drop_eq_nil_iff]
    exact h
  rw [runDecrypt, hdrop]
  rfl

/-- C10 witness: a 3-byte input file decrypts to an empty output with chunk
count 0 and nothing dispatched. -/
theorem c10_short_file_witness :
    ([1, 2, 3] : Bytes).length ≤ 16
    ∧ runDecrypt idCipher (fun _ _ => []) [] [1, 2, 3] 1 "FCFS" none []
      = { result := .ok [], workersStarted := 1, dispatched := [],
          chunkCount := 0 } :=
  ⟨by decide,
    c10_short_file idCipher (fun _ _ => []) [] [1, 2, 3] 1 [] (by decide)⟩

/-- C10 counterexample: a 17-byte input (16 zero bytes of salt plus the byte
5) is shorter than the 20-byte header, yet the chunk count decodes to 5, not
0, and five (empty) chunks are dispatched to the workers; the run still
raises no error and writes an empty output file. -/
theorem c10_counterexample :
    (List.replicate 16 0 ++ [5] : Bytes).length = 17
    ∧ (runDecrypt idCipher (fun _ _ => []) [] (List.replicate 16 0 ++ [5]) 1
        "FCFS" none []).chunkCount = 5
    ∧ (runDecrypt idCipher (fun _ _ => []) [] (List.replicate 16 0 ++ [5]) 1
        "FCFS" none []).dispatched = [0, 1, 2, 3, 4]
    ∧ (runDecrypt idCipher (fun _ _ => []) [] (List.replicate 16 0 ++ [5]) 1
        "FCFS" none []).result = .ok []
    ∧ (5 : Nat) ≠ 0 := by
  exact ⟨by decide, by decide, by decide, by decide, by decide⟩

end FileEnc
